import Mathlib

/-!
Verification of the MLX sidecar server (`python-backend/server.py`).

The embedding models the server's data and control flow over `List Char`
strings: the multi-stage response sanitizer inlined in `generate_text`
(reasoning-block removal via the non-greedy regex `<think>.*?</think>`,
first-`Output:`-section extraction, `Text:` loop cutoff, whitespace strip),
the model lifecycle endpoints (`load_model`, `unload_model`, `get_status`)
over the global `model`/`tokenizer`/`current_model_path` state, and the
`generate_text` handler with its external calls (chat template, decode,
encode) abstracted as oracle functions.
-/

namespace Codictate

abbrev Str := List Char

/-- Whitespace characters stripped by Python's `str.strip()` (ASCII range). -/
def isSpace (c : Char) : Bool :=
  c = ' ' || c = '\t' || c = '\n' || c = '\r' || c = '\x0b' || c = '\x0c'

/-- Leading-whitespace removal, the left half of Python `str.strip()`. -/
def stripLeading (s : Str) : Str := s.dropWhile isSpace

/-- Trailing-whitespace removal, the right half of Python `str.strip()`. -/
def stripTrailing (s : Str) : Str := (s.reverse.dropWhile isSpace).reverse

/-- Python `str.strip()`: drop leading and trailing whitespace. -/
def pyStrip (s : Str) : Str := stripTrailing (stripLeading s)

/-- Python `str.find(pat)` restricted to a successful result: index of the
leftmost occurrence of `pat` in `s`, or `none` (Python's `-1`). -/
def firstOcc (pat : Str) : Str → Option Nat
  | [] => if pat.isPrefixOf [] then some 0 else none
  | c :: t =>
    if pat.isPrefixOf (c :: t) then some 0
    else (firstOcc pat t).map (fun n => n + 1)

/-- Python `pat in s` (substring containment). -/
def containsSub (pat s : Str) : Bool := (firstOcc pat s).isSome

/-- Python `str.find(pat, start)` (successful case). -/
def firstOccFrom (pat s : Str) (start : Nat) : Option Nat :=
  (firstOcc pat (s.drop start)).map (fun n => n + start)

/-! ### Basic facts about `firstOcc` -/

theorem firstOcc_some_occ {pat s : Str} {i : Nat} (h : firstOcc pat s = some i) :
    pat <+: s.drop i := by
  induction s generalizing i with
  | nil =>
    rw [firstOcc] at h
    split at h
    · cases h
      exact List.isPrefixOf_iff_prefix.mp (by assumption)
    · cases h
  | cons c t ih =>
    rw [firstOcc] at h
    split at h
    · cases h
      exact List.isPrefixOf_iff_prefix.mp (by assumption)
    · cases ho : firstOcc pat t with
      | none => rw [ho] at h; cases h
      | some j =>
        rw [ho] at h
        simp only [Option.map_some'] at h
        cases h
        simpa using ih ho

theorem firstOcc_some_min {pat s : Str} {i : Nat} (h : firstOcc pat s = some i) :
    ∀ j, j < i → ¬ pat <+: s.drop j := by
  induction s generalizing i with
  | nil =>
    rw [firstOcc] at h
    split at h
    · cases h; omega
    · cases h
  | cons c t ih =>
    rw [firstOcc] at h
    split at h
    · cases h; omega
    · cases ho : firstOcc pat t with
      | none => rw [ho] at h; cases h
      | some j0 =>
        rw [ho] at h
        simp only [Option.map_some'] at h
        cases h
        intro j hj hpre
        match j with
        | 0 =>
          rename_i hnp
          exact hnp (List.isPrefixOf_iff_prefix.mpr (by simpa using hpre))
        | j' + 1 =>
          exact ih ho j' (by omega) (by simpa using hpre)

theorem occ_firstOcc_le {pat s : Str} {i : Nat} (h : pat <+: s.drop i) :
    ∃ j, j ≤ i ∧ firstOcc pat s = some j := by
  induction s generalizing i with
  | nil =>
    have hp : pat = [] := List.prefix_nil.mp (by simpa using h)
    refine ⟨0, Nat.zero_le i, ?_⟩
    rw [firstOcc]
    simp [hp, List.isPrefixOf_iff_prefix]
  | cons c t ih =>
    by_cases hp : pat.isPrefixOf (c :: t)
    · exact ⟨0, Nat.zero_le i, by rw [firstOcc]; simp [hp]⟩
    · match i with
      | 0 =>
        exact absurd (List.isPrefixOf_iff_prefix.mpr (by simpa using h)) hp
      | i' + 1 =>
        obtain ⟨j, hj, hfo⟩ := ih (by simpa using h)
        exact ⟨j + 1, by omega, by rw [firstOcc]; simp [hp, hfo]⟩

theorem firstOcc_eq_none_iff {pat s : Str} :
    firstOcc pat s = none ↔ ∀ i, ¬ pat <+: s.drop i := by
  constructor
  · intro h i hocc
    obtain ⟨j, _, hfo⟩ := occ_firstOcc_le hocc
    rw [h] at hfo; cases hfo
  · intro h
    cases ho : firstOcc pat s with
    | none => rfl
    | some j => exact absurd (firstOcc_some_occ ho) (h j)

theorem firstOcc_isSome_iff {pat s : Str} :
    (firstOcc pat s).isSome = true ↔ ∃ i, pat <+: s.drop i := by
  constructor
  · intro h
    cases ho : firstOcc pat s with
    | none => rw [ho] at h; cases h
    | some j => exact ⟨j, firstOcc_some_occ ho⟩
  · rintro ⟨i, hi⟩
    obtain ⟨j, _, hfo⟩ := occ_firstOcc_le hi
    rw [hfo]; rfl

theorem firstOcc_le_length {pat s : Str} {i : Nat} (h : firstOcc pat s = some i) :
    i ≤ s.length := by
  induction s generalizing i with
  | nil =>
    rw [firstOcc] at h
    split at h
    · cases h; omega
    · cases h
  | cons c t ih =>
    rw [firstOcc] at h
    split at h
    · cases h; omega
    · cases ho : firstOcc pat t with
      | none => rw [ho] at h; cases h
      | some j =>
        rw [ho] at h
        simp only [Option.map_some'] at h
        cases h
        have := ih ho
        simp
        omega

theorem firstOcc_add_le {pat s : Str} {i : Nat} (h : firstOcc pat s = some i) :
    i + pat.length ≤ s.length := by
  rcases eq_or_ne pat [] with hp | hp
  · subst hp
    simpa using firstOcc_le_length h
  · have hocc := firstOcc_some_occ h
    have hl : pat.length ≤ (s.drop i).length := hocc.length_le
    rw [List.length_drop] at hl
    have := firstOcc_le_length h
    omega

theorem firstOcc_of_prefix {pat s : Str} (h : pat <+: s) : firstOcc pat s = some 0 := by
  obtain ⟨j, hj, hfo⟩ := occ_firstOcc_le (i := 0) (by simpa using h)
  interval_cases j
  exact hfo

/-! ### Prefix and occurrence utilities -/

theorem pfx_of_pfx_take {pat s : Str} {n : Nat} (h : pat <+: s.take n) : pat <+: s :=
  h.trans ( List.take_prefix n s)

theorem pfx_drop {x y : Str} (n : Nat) (h : x <+: y) : x.drop n <+: y.drop n := by
  obtain ⟨t, rfl⟩ := h
  by_cases hn : n ≤ x.length
  · rw [List.drop_append_of_le_length hn]
    exact List.prefix_append _ _
  · rw [List.drop_eq_nil_of_le (by omega)]
    exact List.nil_prefix

theorem occ_take {pat s : Str} {n j : Nat} (hpat : pat ≠ [])
    (h : pat <+: (s.take n).drop j) : pat <+: s.drop j ∧ j + pat.length ≤ n := by
  rw [List.drop_take] at h
  have hlen : pat.length ≤ n - j := by
    have := h.length_le
    simp only [List.length_take, List.length_drop] at this
    omega
  have hpos : 0 < pat.length := List.length_pos.mpr hpat
  exact ⟨pfx_of_pfx_take h, by omega⟩

theorem firstOcc_take_of_firstOcc {pat s : Str} {i : Nat} (hpat : pat ≠ [])
    (h : firstOcc pat s = some i) : firstOcc pat (s.take i) = none := by
  rw [firstOcc_eq_none_iff]
  intro j hocc
  obtain ⟨hd, hb⟩ := occ_take hpat hocc
  have hpos : 0 < pat.length := List.length_pos.mpr hpat
  exact firstOcc_some_min h j (by omega) hd

theorem occ_iff_inf {pat s : Str} : (∃ i, pat <+: s.drop i) ↔ pat <:+: s := by
  constructor
  · rintro ⟨i, hi⟩
    exact hi.isInfix.trans (List.drop_suffix i s).isInfix
  · rintro ⟨l, r, rfl⟩
    refine ⟨l.length, ?_⟩
    rw [List.append_assoc, List.drop_left]
    exact List.prefix_append _ _

theorem containsSub_iff_inf {pat s : Str} : containsSub pat s = true ↔ pat <:+: s := by
  rw [containsSub, firstOcc_isSome_iff, occ_iff_inf]

theorem containsSub_eq_false_iff {pat s : Str} :
    containsSub pat s = false ↔ firstOcc pat s = none := by
  rw [containsSub]
  cases firstOcc pat s <;> simp

theorem contains_mono {pat w s : Str} (h : w <:+: s) (hc : containsSub pat w = true) :
    containsSub pat s = true :=
  containsSub_iff_inf.mpr ((containsSub_iff_inf.mp hc).trans h)

theorem not_contains_mono {pat w s : Str} (hc : containsSub pat s = false)
    (h : w <:+: s) : containsSub pat w = false := by
  cases hw : containsSub pat w with
  | false => rfl
  | true => rw [contains_mono h hw] at hc; cases hc

/-- Where an occurrence inside an appended string can sit: wholly inside the
left part, wholly inside the right part, or straddling the boundary. -/
theorem occ_append_cases {pat a b : Str} {q : Nat} (h : pat <+: (a ++ b).drop q) :
    (q + pat.length ≤ a.length ∧ pat <+: a.drop q) ∨
    (a.length ≤ q ∧ pat <+: b.drop (q - a.length)) ∨
    (q < a.length ∧ a.length < q + pat.length ∧ pat.drop (a.length - q) <+: b) := by
  rw [List.drop_append_eq_append_drop] at h
  by_cases hq : a.length ≤ q
  · right; left
    rw [List.drop_eq_nil_of_le hq] at h
    simpa using ⟨hq, h⟩
  · push_neg at hq
    rw [Nat.sub_eq_zero_of_le (by omega), List.drop_zero] at h
    by_cases hl : pat.length ≤ a.length - q
    · left
      refine ⟨by omega, ?_⟩
      refine List.prefix_of_prefix_length_le h (List.prefix_append _ _) ?_
      simpa using hl
    · right; right
      push_neg at hl
      refine ⟨hq, by omega, ?_⟩
      have hlen : (a.drop q).length = a.length - q := by simp
      have h1 : a.drop q <+: pat :=
        List.prefix_of_prefix_length_le (List.prefix_append _ _) h (by omega)
      have h2 : a.drop q = pat.take (a.length - q) := by
        have := List.prefix_iff_eq_take.mp h1
        rwa [hlen] at this
      obtain ⟨t, ht⟩ := h
      rw [h2] at ht
      conv at ht => lhs; rw [← List.take_append_drop (a.length - q) pat, List.append_assoc]
      exact ⟨t, List.append_cancel_left ht⟩

theorem head_append_of_ne_nil {x y : Str} (hx : x ≠ []) : (x ++ y).head? = x.head? := by
  cases x with
  | nil => exact absurd rfl hx
  | cons c t => rfl

theorem not_pfx_of_head_ne {x y : Str} (hx : x ≠ []) (hh : x.head? ≠ y.head?) :
    ¬ x <+: y := by
  rintro ⟨t, rfl⟩
  exact hh (head_append_of_ne_nil hx).symm

/-- A marker whose later characters never equal its head cannot occur
straddling its own left boundary. -/
theorem noStraddle_of_head {M : Str}
    (hhead : ∀ j, j < M.length → 0 < j → (M.drop j).head? ≠ M.head?) :
    ∀ (b : Str) (j : Nat), 0 < j → j < M.length → ¬ (M.drop j <+: M ++ b) := by
  intro b j hj1 hj2 hpre
  have hne : M.drop j ≠ [] := by
    have : (M.drop j).length = M.length - j := by simp
    intro hcontra
    rw [hcontra] at this
    simp at this
    omega
  have hMne : M ≠ [] := by
    intro hcontra
    rw [hcontra] at hj2
    simp at hj2
  exact not_pfx_of_head_ne hne (by rw [head_append_of_ne_nil hMne]; exact hhead j hj2 hj1) hpre

/-- If `a` is free of marker `M` and `M` cannot straddle its own boundary,
then the first occurrence of `M` in `a ++ M ++ b` is exactly at `a.length`. -/
theorem firstOcc_append_marker {M a b : Str}
    (ha : firstOcc M a = none)
    (hstr : ∀ j, 0 < j → j < M.length → ¬ (M.drop j <+: M ++ b)) :
    firstOcc M (a ++ (M ++ b)) = some a.length := by
  have hocc : M <+: (a ++ (M ++ b)).drop a.length := by
    rw [ List.drop_left]
    exact List.prefix_append M b
  obtain ⟨j, hj, hfo⟩ := occ_firstOcc_le hocc
  rcases Nat.lt_or_ge j a.length with hlt | hge
  · exfalso
    have hjocc := firstOcc_some_occ hfo
    rcases occ_append_cases hjocc with ⟨_, hp⟩ | ⟨hb, _⟩ | ⟨h1, h2, h3⟩
    · exact (firstOcc_eq_none_iff.mp ha j) hp
    · omega
    · exact hstr (a.length - j) (by omega) (by omega) h3
  · have : j = a.length := by omega
    subst this
    exact hfo

/-! ### The marker strings used by the sanitizer in `generate_text` -/

def thinkOpen : Str := "<think>".data

def thinkClose : Str := "</think>".data

def outputMarker : Str := "Output:".data

def textMarker : Str := "Text:".data

def paraBreak : Str := "\n\n".data

/-! ### `str.split(sep)` and `str.count(sep)` -/

/-- Fuelled version of Python `s.split(pat)` for a nonempty separator. -/
def splitOnSubF (pat : Str) : Nat → Str → List Str
  | 0, s => [s]
  | fuel + 1, s =>
    match firstOcc pat s with
    | none => [s]
    | some i => s.take i :: splitOnSubF pat fuel (s.drop (i + pat.length))

/-- Python `s.split(pat)` (nonempty `pat`). -/
def splitOnSub (pat s : Str) : List Str := splitOnSubF pat (s.length + 1) s

theorem splitOnSubF_congr {pat : Str} (hpat : pat ≠ []) :
    ∀ {f1 f2 : Nat} {s : Str}, s.length < f1 → s.length < f2 →
      splitOnSubF pat f1 s = splitOnSubF pat f2 s := by
  intro f1
  induction f1 with
  | zero => intro f2 s h1; omega
  | succ g ih =>
    intro f2 s h1 h2
    match f2, h2 with
    | g2 + 1, h2 =>
      rw [splitOnSubF, splitOnSubF]
      cases ho : firstOcc pat s with
      | none => rfl
      | some i =>
        have hlen := firstOcc_add_le ho
        have hpos : 0 < pat.length := List.length_pos.mpr hpat
        have hd : (s.drop (i + pat.length)).length < g := by
          simp only [List.length_drop]
          omega
        have hd2 : (s.drop (i + pat.length)).length < g2 := by
          simp only [List.length_drop]
          omega
        simp only []
        rw [ih hd hd2]

theorem splitOnSub_eq {pat : Str} (hpat : pat ≠ []) (s : Str) :
    splitOnSub pat s =
      match firstOcc pat s with
      | none => [s]
      | some i => s.take i :: splitOnSub pat (s.drop (i + pat.length)) := by
  rw [splitOnSub, splitOnSubF]
  cases ho : firstOcc pat s with
  | none => rfl
  | some i =>
    have hlen := firstOcc_add_le ho
    have hpos : 0 < pat.length := List.length_pos.mpr hpat
    simp only []
    rw [splitOnSub]
    exact congrArg _ (splitOnSubF_congr hpat (by simp; omega) (by simp))

theorem splitOnSub_ne_nil {pat s : Str} : splitOnSub pat s ≠ [] := by
  rw [splitOnSub]
  cases hl : s.length + 1 with
  | zero => omega
  | succ g =>
    rw [splitOnSubF]
    cases firstOcc pat s <;> simp

/-- Python `s.count(pat)` for nonempty `pat` (non-overlapping count). -/
def countSub (pat s : Str) : Nat := (splitOnSub pat s).length - 1

/-- Separator-interleaved concatenation; the inverse of `splitOnSub`. -/
def joinSep (sep : Str) : List Str → Str
  | [] => []
  | [x] => x
  | x :: y :: t => x ++ sep ++ joinSep sep (y :: t)

theorem joinSep_cons_of_ne_nil {sep : Str} {x : Str} {l : List Str} (hl : l ≠ []) :
    joinSep sep (x :: l) = x ++ sep ++ joinSep sep l := by
  cases l with
  | nil => exact absurd rfl hl
  | cons y t => rfl

theorem occ_decomp {pat s : Str} {i : Nat} (hocc : pat <+: s.drop i) :
    s.drop i = pat ++ s.drop (i + pat.length) := by
  obtain ⟨t, ht⟩ := hocc
  have hdd : s.drop (i + pat.length) = (s.drop i).drop pat.length := by
    rw [List.drop_drop, Nat.add_comm]
  rw [hdd, ← ht, List.drop_left]

theorem joinSep_splitOnSub {pat : Str} (hpat : pat ≠ []) (s : Str) :
    joinSep pat (splitOnSub pat s) = s := by
  suffices h : ∀ (n : Nat) (s : Str), s.length = n → joinSep pat (splitOnSub pat s) = s by
    exact h s.length s rfl
  intro n
  induction n using Nat.strong_induction_on with
  | _ n ih =>
    intro s hn
    rw [splitOnSub_eq hpat]
    cases ho : firstOcc pat s with
    | none => rfl
    | some i =>
      have hlen := firstOcc_add_le ho
      have hpos : 0 < pat.length := List.length_pos.mpr hpat
      have hocc := firstOcc_some_occ ho
      rw [joinSep_cons_of_ne_nil splitOnSub_ne_nil]
      rw [ih (s.drop (i + pat.length)).length (by rw [← hn]; simp; omega) _ rfl]
      conv => rhs; rw [← List.take_append_drop i s, occ_decomp hocc]
      rw [List.append_assoc]

/-- Every piece produced by `splitOnSub` is free of the separator. -/
theorem splitOnSub_parts_free {pat : Str} (hpat : pat ≠ []) {s p : Str}
    (hp : p ∈ splitOnSub pat s) : firstOcc pat p = none := by
  suffices h : ∀ (n : Nat) (s p : Str), s.length = n → p ∈ splitOnSub pat s →
      firstOcc pat p = none by
    exact h s.length s p rfl hp
  clear hp
  intro n
  induction n using Nat.strong_induction_on with
  | _ n ih =>
    intro s p hn hp
    rw [splitOnSub_eq hpat] at hp
    cases ho : firstOcc pat s with
    | none =>
      rw [ho] at hp
      simp at hp
      subst hp
      exact ho
    | some i =>
      rw [ho] at hp
      simp only [List.mem_cons] at hp
      rcases hp with hp | hp
      · subst hp
        exact firstOcc_take_of_firstOcc hpat ho
      · have hlen := firstOcc_add_le ho
        have hpos : 0 < pat.length := List.length_pos.mpr hpat
        exact ih (s.drop (i + pat.length)).length (by rw [← hn]; simp; omega) _ _ rfl hp

/-- Every piece produced by `splitOnSub` occurs inside the original string. -/
theorem splitOnSub_parts_inf {pat : Str} (hpat : pat ≠ []) {s p : Str}
    (hp : p ∈ splitOnSub pat s) : p <:+: s := by
  suffices h : ∀ (n : Nat) (s p : Str), s.length = n → p ∈ splitOnSub pat s → p <:+: s by
    exact h s.length s p rfl hp
  clear hp
  intro n
  induction n using Nat.strong_induction_on with
  | _ n ih =>
    intro s p hn hp
    rw [splitOnSub_eq hpat] at hp
    cases ho : firstOcc pat s with
    | none =>
      rw [ho] at hp
      simp at hp
      subst hp
      exact List.infix_refl _
    | some i =>
      rw [ho] at hp
      simp only [List.mem_cons] at hp
      rcases hp with hp | hp
      · subst hp
        exact ( List.take_prefix i s).isInfix
      · have hlen := firstOcc_add_le ho
        have hpos : 0 < pat.length := List.length_pos.mpr hpat
        exact (ih (s.drop (i + pat.length)).length (by rw [← hn]; simp; omega) _ _ rfl hp).trans
          (List.drop_suffix _ s).isInfix

/-! ### Stage 1 of the sanitizer: `re.sub(r'<think>.*?</think>', '', s, flags=re.DOTALL)`

`re.sub` scans left to right; a non-greedy match starts at the leftmost
`<think>` that is followed by a `</think>`, ends at the first such
`</think>`, and scanning resumes after the removed block without rescanning
the already-emitted output. -/

def stripThinkF : Nat → Str → Str
  | 0, s => s
  | fuel + 1, s =>
    match firstOcc thinkOpen s with
    | none => s
    | some i =>
      match firstOcc thinkClose (s.drop (i + thinkOpen.length)) with
      | none => s
      | some j =>
        s.take i ++ stripThinkF fuel (s.drop (i + thinkOpen.length + j + thinkClose.length))

def stripThink (s : Str) : Str := stripThinkF (s.length + 1) s

theorem thinkOpen_ne_nil : thinkOpen ≠ [] := by decide

theorem thinkClose_ne_nil : thinkClose ≠ [] := by decide

theorem stripThinkF_congr :
    ∀ {f1 f2 : Nat} {s : Str}, s.length < f1 → s.length < f2 →
      stripThinkF f1 s = stripThinkF f2 s := by
  intro f1
  induction f1 with
  | zero => intro f2 s h1; omega
  | succ g ih =>
    intro f2 s h1 h2
    match f2, h2 with
    | g2 + 1, h2 =>
      rw [stripThinkF, stripThinkF]
      cases ho : firstOcc thinkOpen s with
      | none => rfl
      | some i =>
        show (match firstOcc thinkClose (s.drop (i + thinkOpen.length)) with
              | none => s
              | some j =>
                s.take i ++
                  stripThinkF g (s.drop (i + thinkOpen.length + j + thinkClose.length))) =
            (match firstOcc thinkClose (s.drop (i + thinkOpen.length)) with
              | none => s
              | some j =>
                s.take i ++
                  stripThinkF g2 (s.drop (i + thinkOpen.length + j + thinkClose.length)))
        cases hc : firstOcc thinkClose (s.drop (i + thinkOpen.length)) with
        | none => rfl
        | some j =>
          have hlen1 := firstOcc_add_le ho
          have hlen2 := firstOcc_add_le hc
          rw [List.length_drop] at hlen2
          have hop : thinkOpen.length = 7 := rfl
          have hcl : thinkClose.length = 8 := rfl
          have hd : (s.drop (i + thinkOpen.length + j + thinkClose.length)).length < g := by
            simp only [List.length_drop]
            omega
          have hd2 : (s.drop (i + thinkOpen.length + j + thinkClose.length)).length < g2 := by
            simp only [List.length_drop]
            omega
          show s.take i ++ stripThinkF g (s.drop (i + thinkOpen.length + j + thinkClose.length)) =
              s.take i ++ stripThinkF g2 (s.drop (i + thinkOpen.length + j + thinkClose.length))
          rw [ih hd hd2]

theorem stripThink_eq (s : Str) :
    stripThink s =
      match firstOcc thinkOpen s with
      | none => s
      | some i =>
        match firstOcc thinkClose (s.drop (i + thinkOpen.length)) with
        | none => s
        | some j =>
          s.take i ++ stripThink (s.drop (i + thinkOpen.length + j + thinkClose.length)) := by
  rw [stripThink, stripThinkF]
  cases ho : firstOcc thinkOpen s with
  | none => rfl
  | some i =>
    show (match firstOcc thinkClose (s.drop (i + thinkOpen.length)) with
          | none => s
          | some j =>
            s.take i ++
              stripThinkF s.length (s.drop (i + thinkOpen.length + j + thinkClose.length))) =
        (match firstOcc thinkClose (s.drop (i + thinkOpen.length)) with
          | none => s
          | some j =>
            s.take i ++ stripThink (s.drop (i + thinkOpen.length + j + thinkClose.length)))
    cases hc : firstOcc thinkClose (s.drop (i + thinkOpen.length)) with
    | none => rfl
    | some j =>
      have hlen1 := firstOcc_add_le ho
      have hlen2 := firstOcc_add_le hc
      rw [List.length_drop] at hlen2
      have hop : thinkOpen.length = 7 := rfl
      have hcl : thinkClose.length = 8 := rfl
      show s.take i ++ stripThinkF s.length (s.drop (i + thinkOpen.length + j + thinkClose.length)) =
          s.take i ++ stripThink (s.drop (i + thinkOpen.length + j + thinkClose.length))
      rw [stripThink]
      exact congrArg _ (stripThinkF_congr (by simp; omega) (by simp))

/-! ### Stages 2-4 of the sanitizer -/

/-- Stage 2 (`server.py` lines 214-222): if `'Output:' in response`, split on
the marker, scan the parts after the first split point, skip parts that are
empty after stripping, keep the first non-empty one truncated at its first
blank line. -/
def takeFirstSection (s : Str) : Str :=
  if containsSub outputMarker s then
    match (splitOnSub outputMarker s).tail.find? (fun part => !(pyStrip part).isEmpty) with
    | some part => (splitOnSub paraBreak (pyStrip part)).headI
    | none => s
  else s

/-- Stage 3 (`server.py` lines 224-234): if `'Text:'` occurs more than once,
truncate at its first occurrence; if that occurrence is at position zero,
truncate at the next occurrence found from index 5 instead. -/
def loopCutoff (s : Str) : Str :=
  if 1 < countSub textMarker s then
    match firstOcc textMarker s with
    | none => s
    | some i =>
      if 0 < i then pyStrip (s.take i)
      else
        match firstOccFrom textMarker s 5 with
        | none => s
        | some k => if 0 < k then pyStrip (s.take k) else s
  else s

/-- The response sanitizer inlined in `generate_text` (`server.py` lines
209-237); the tests refer to it as `clean_model_response`. An empty (falsy)
input is returned unchanged. -/
def clean_model_response (s : Str) : Str :=
  if s.isEmpty then s
  else pyStrip (loopCutoff (takeFirstSection (stripThink s)))

/-- `clean_model_response` lifted to an absent (`None`) input, which is
falsy and hence also returned as the empty string. -/
def clean_model_response_opt (o : Option Str) : Str :=
  clean_model_response (o.getD [])

example : clean_model_response "<think>Let me analyze this...</think>Hello world".data =
    "Hello world".data := by decide

example : clean_model_response "Output: Hello\n\nOutput: World".data = "Hello".data := by
  decide

example : clean_model_response "Hello world Text: repeated Text: again".data =
    "Hello world".data := by decide

example : clean_model_response "  \n  Hello world  \n  ".data = "Hello world".data := by
  decide

example : clean_model_response "This is a clean translation.".data =
    "This is a clean translation.".data := by decide

example : clean_model_response "<think>X</think>Y".data = "Y".data := by decide

example :
    clean_model_response
        "<think>\nStep 1: Analyze\nStep 2: Process\n</think>The answer is 42".data =
      "The answer is 42".data := by decide

example : clean_model_response "<thi<think>A</think>nk>B</think>C".data =
    "<think>B</think>C".data := by decide

example :
    clean_model_response (clean_model_response "<thi<think>A</think>nk>B</think>C".data) =
      "C".data := by decide

/-! ### Whitespace-strip lemmas -/

theorem dropWhile_head_false {p : Char → Bool} {l : Str} {c : Char} {t : Str}
    (h : l.dropWhile p = c :: t) : p c = false := by
  have := List.head?_dropWhile_not p l
  rw [h] at this
  simpa using this

theorem dropWhile_cons_false {p : Char → Bool} {c : Char} (t : Str) (h : p c = false) :
    (c :: t).dropWhile p = c :: t := by
  simp [List.dropWhile_cons, h]

theorem dropWhile_idem {p : Char → Bool} (l : Str) :
    (l.dropWhile p).dropWhile p = l.dropWhile p := by
  cases h : l.dropWhile p with
  | nil => rfl
  | cons c t => exact dropWhile_cons_false t (dropWhile_head_false h)

theorem stripLeading_suffix (s : Str) : stripLeading s <:+ s :=
  List.dropWhile_suffix isSpace

theorem stripTrailing_pfx (s : Str) : stripTrailing s <+: s := by
  rw [stripTrailing]
  refine List.reverse_suffix.mp ?_
  rw [List.reverse_reverse]
  exact List.dropWhile_suffix isSpace

theorem pyStrip_inf (s : Str) : pyStrip s <:+: s :=
  (stripTrailing_pfx (stripLeading s)).isInfix.trans (stripLeading_suffix s).isInfix

theorem stripTrailing_idem (s : Str) : stripTrailing (stripTrailing s) = stripTrailing s := by
  rw [stripTrailing, stripTrailing, List.reverse_reverse, dropWhile_idem]

theorem stripLeading_stripTrailing_stripLeading (s : Str) :
    stripLeading (stripTrailing (stripLeading s)) = stripTrailing (stripLeading s) := by
  cases hx : stripTrailing (stripLeading s) with
  | nil => rfl
  | cons c t =>
    obtain ⟨t', ht⟩ := stripTrailing_pfx (stripLeading s)
    rw [hx] at ht
    have hhead : isSpace c = false := by
      refine dropWhile_head_false (p := isSpace) (l := s) (t := t ++ t') ?_
      rw [← List.cons_append, ht]
      rfl
    rw [stripLeading, dropWhile_cons_false t hhead]

theorem pyStrip_idem (s : Str) : pyStrip (pyStrip s) = pyStrip s := by
  rw [pyStrip, pyStrip, stripLeading_stripTrailing_stripLeading, stripTrailing_idem]

theorem pyStrip_eq_nil_iff {s : Str} : pyStrip s = [] ↔ ∀ c ∈ s, isSpace c = true := by
  rw [pyStrip, stripTrailing, List.reverse_eq_nil_iff, List.dropWhile_eq_nil_iff]
  constructor
  · intro h c hc
    rcases List.mem_append.mp (by rw [List.takeWhile_append_dropWhile (p := isSpace)]; exact hc :
        c ∈ s.takeWhile isSpace ++ s.dropWhile isSpace) with hm | hm
    · exact List.mem_takeWhile_imp hm
    · exact h c (List.mem_reverse.mpr hm)
  · intro h c hc
    exact h c ((stripLeading_suffix s).subset (List.mem_reverse.mp hc))

theorem stripTrailing_append_ws {x w : Str} (hw : ∀ c ∈ w, isSpace c = true) :
    stripTrailing (x ++ w) = stripTrailing x := by
  rw [stripTrailing, stripTrailing, List.reverse_append, List.dropWhile_append]
  have : w.reverse.dropWhile isSpace = [] :=
    List.dropWhile_eq_nil_iff.mpr (fun c hc => hw c (List.mem_reverse.mp hc))
  rw [this]
  rfl

theorem stripLeading_append_of_head {a b : Str} {c : Char} (hb : b.head? = some c)
    (hc : isSpace c = false) : stripLeading (a ++ b) = stripLeading a ++ b := by
  cases b with
  | nil => cases hb
  | cons c0 t =>
    have hc0 : c0 = c := by injection hb
    subst hc0
    rw [stripLeading, stripLeading, List.dropWhile_append]
    split
    · rename_i hemp
      have : a.dropWhile isSpace = [] := by
        cases h : a.dropWhile isSpace with
        | nil => rfl
        | cons x y => rw [h] at hemp; cases hemp
      rw [this, dropWhile_cons_false t hc]
      rfl
    · rfl

theorem stripTrailing_append_of_last {x w : Str} {c : Char}
    (hw : w.reverse.head? = some c) (hc : isSpace c = false) :
    stripTrailing (x ++ w) = x ++ w := by
  rw [stripTrailing, List.reverse_append]
  cases hr : w.reverse with
  | nil => rw [hr] at hw; cases hw
  | cons c0 t =>
    have hc0 : c0 = c := by rw [hr] at hw; injection hw
    subst hc0
    rw [List.cons_append, dropWhile_cons_false _ hc, ← List.cons_append, ← hr,
      ← List.reverse_append, List.reverse_reverse]

/-! ### Counting occurrences -/

theorem textMarker_ne_nil : textMarker ≠ [] := by decide

theorem outputMarker_ne_nil : outputMarker ≠ [] := by decide

theorem paraBreak_ne_nil : paraBreak ≠ [] := by decide

theorem splitOnSub_of_none {pat s : Str} (hpat : pat ≠ [])
    (h : firstOcc pat s = none) : splitOnSub pat s = [s] := by
  rw [splitOnSub_eq hpat, h]

theorem splitOnSub_of_some {pat s : Str} {i : Nat} (hpat : pat ≠ [])
    (h : firstOcc pat s = some i) :
    splitOnSub pat s = s.take i :: splitOnSub pat (s.drop (i + pat.length)) := by
  rw [splitOnSub_eq hpat, h]

theorem countSub_eq_zero_of_none {pat s : Str} (hpat : pat ≠ [])
    (h : firstOcc pat s = none) : countSub pat s = 0 := by
  rw [countSub, splitOnSub_of_none hpat h]
  rfl

theorem one_lt_countSub_iff {pat s : Str} (hpat : pat ≠ []) :
    1 < countSub pat s ↔
      ∃ i j, firstOcc pat s = some i ∧
        firstOcc pat (s.drop (i + pat.length)) = some j := by
  constructor
  · intro hlt
    cases ho : firstOcc pat s with
    | none =>
      rw [countSub, splitOnSub_of_none hpat ho] at hlt
      simp at hlt
    | some i =>
      cases hr : firstOcc pat (s.drop (i + pat.length)) with
      | none =>
        rw [countSub, splitOnSub_of_some hpat ho, splitOnSub_of_none hpat hr] at hlt
        simp at hlt
      | some j => exact ⟨i, j, rfl, hr⟩
  · rintro ⟨i, j, ho, hr⟩
    rw [countSub, splitOnSub_of_some hpat ho, splitOnSub_of_some hpat hr]
    have hpos : 0 <
        (splitOnSub pat ((s.drop (i + pat.length)).drop (j + pat.length))).length :=
      List.length_pos.mpr splitOnSub_ne_nil
    simp only [List.length_cons]
    omega

theorem pfx_append_right {x z r : Str} (h : x <+: z) : x <+: z ++ r := by
  obtain ⟨t, rfl⟩ := h
  exact ⟨t ++ r, by rw [List.append_assoc]⟩

theorem occ_of_firstOcc_drop {pat s : Str} {d j : Nat}
    (h : firstOcc pat (s.drop d) = some j) : pat <+: s.drop (d + j) := by
  have h2 := firstOcc_some_occ h
  rwa [List.drop_drop] at h2

theorem one_lt_countSub_of_two_occ {pat s : Str} (hpat : pat ≠ []) {p q : Nat}
    (h1 : pat <+: s.drop p) (h2 : pat <+: s.drop q)
    (hpq : p + pat.length ≤ q) : 1 < countSub pat s := by
  obtain ⟨i0, hi0le, hfo⟩ := occ_firstOcc_le h1
  refine (one_lt_countSub_iff hpat).mpr ⟨i0, ?_⟩
  have hq : pat <+: (s.drop (i0 + pat.length)).drop (q - i0 - pat.length) := by
    rw [List.drop_drop]
    have heq : i0 + pat.length + (q - i0 - pat.length) = q := by omega
    rw [heq]
    exact h2
  obtain ⟨j, _, hj⟩ := occ_firstOcc_le hq
  exact ⟨j, hfo, hj⟩

theorem one_lt_countSub_of_inf {pat y u : Str} (hpat : pat ≠ []) (hinf : y <:+: u)
    (h : 1 < countSub pat y) : 1 < countSub pat u := by
  obtain ⟨i, j, hfo, hfo2⟩ := (one_lt_countSub_iff hpat).mp h
  have h1 := firstOcc_some_occ hfo
  have h2 := occ_of_firstOcc_drop hfo2
  obtain ⟨l, r, rfl⟩ := hinf
  have hlpos : 0 < pat.length := List.length_pos.mpr hpat
  have lift : ∀ m, pat <+: y.drop m → pat <+: ((l ++ y) ++ r).drop (l.length + m) := by
    intro m hm
    have hmy : m ≤ y.length := by
      have := hm.length_le
      rw [List.length_drop] at this
      omega
    rw [List.append_assoc, List.drop_append, List.drop_append_of_le_length hmy]
    exact pfx_append_right hm
  have o1 := lift i h1
  have o2 := lift (i + pat.length + j) h2
  exact one_lt_countSub_of_two_occ hpat o1 o2 (by omega)

/-! ### `firstOccFrom` facts -/

theorem firstOccFrom_some {pat s : Str} {a k : Nat} (h : firstOccFrom pat s a = some k) :
    a ≤ k ∧ pat <+: s.drop k ∧ ∀ m, a ≤ m → m < k → ¬ pat <+: s.drop m := by
  rw [firstOccFrom] at h
  cases ho : firstOcc pat (s.drop a) with
  | none => rw [ho] at h; cases h
  | some n =>
    rw [ho] at h
    simp only [Option.map_some'] at h
    cases h
    refine ⟨by omega, ?_, ?_⟩
    · have h2 := firstOcc_some_occ ho
      rw [List.drop_drop] at h2
      rwa [Nat.add_comm] at h2
    · intro m ham hmk hocc
      have hmem : pat <+: (s.drop a).drop (m - a) := by
        rw [List.drop_drop]
        have heq : a + (m - a) = m := by omega
        rw [heq]
        exact hocc
      exact firstOcc_some_min ho (m - a) (by omega) hmem

theorem firstOccFrom_none {pat s : Str} {a : Nat} (h : firstOccFrom pat s a = none) :
    ∀ m, a ≤ m → ¬ pat <+: s.drop m := by
  rw [firstOccFrom] at h
  cases ho : firstOcc pat (s.drop a) with
  | some n => rw [ho] at h; cases h
  | none =>
    intro m ham hocc
    have hmem : pat <+: (s.drop a).drop (m - a) := by
      rw [List.drop_drop]
      have heq : a + (m - a) = m := by omega
      rw [heq]
      exact hocc
    exact (firstOcc_eq_none_iff.mp ho) (m - a) hmem

/-! ### `loopCutoff` computation lemmas -/

theorem loopCutoff_of_le {s : Str} (h : ¬ 1 < countSub textMarker s) : loopCutoff s = s := by
  rw [loopCutoff, if_neg h]

theorem loopCutoff_of_pos {s : Str} {i : Nat} (hc : 1 < countSub textMarker s)
    (ho : firstOcc textMarker s = some i) (hi : 0 < i) :
    loopCutoff s = pyStrip (s.take i) := by
  rw [loopCutoff, if_pos hc, ho]
  show (if 0 < i then pyStrip (s.take i)
    else
      match firstOccFrom textMarker s 5 with
      | none => s
      | some k => if 0 < k then pyStrip (s.take k) else s) = pyStrip (s.take i)
  rw [if_pos hi]

theorem loopCutoff_of_zero_some {s : Str} {k : Nat} (hc : 1 < countSub textMarker s)
    (ho : firstOcc textMarker s = some 0) (hk : firstOccFrom textMarker s 5 = some k)
    (hkpos : 0 < k) : loopCutoff s = pyStrip (s.take k) := by
  rw [loopCutoff, if_pos hc, ho]
  show (if 0 < 0 then pyStrip (s.take 0)
    else
      match firstOccFrom textMarker s 5 with
      | none => s
      | some k => if 0 < k then pyStrip (s.take k) else s) = pyStrip (s.take k)
  rw [if_neg (by omega), hk]
  show (if 0 < k then pyStrip (s.take k) else s) = pyStrip (s.take k)
  rw [if_pos hkpos]

theorem loopCutoff_of_zero_none {s : Str} (hc : 1 < countSub textMarker s)
    (ho : firstOcc textMarker s = some 0) (hk : firstOccFrom textMarker s 5 = none) :
    loopCutoff s = s := by
  rw [loopCutoff, if_pos hc, ho]
  show (if 0 < 0 then pyStrip (s.take 0)
    else
      match firstOccFrom textMarker s 5 with
      | none => s
      | some k => if 0 < k then pyStrip (s.take k) else s) = s
  rw [if_neg (by omega), hk]

theorem loopCutoff_inf (s : Str) : loopCutoff s <:+: s := by
  by_cases hc : 1 < countSub textMarker s
  · cases ho : firstOcc textMarker s with
    | none =>
      obtain ⟨i, j, hfo, _⟩ := (one_lt_countSub_iff textMarker_ne_nil).mp hc
      rw [ho] at hfo
      cases hfo
    | some i =>
      rcases Nat.eq_zero_or_pos i with hi | hi
      · subst hi
        cases hk : firstOccFrom textMarker s 5 with
        | none => rw [loopCutoff_of_zero_none hc ho hk]
        | some k =>
          obtain ⟨hk5, _, _⟩ := firstOccFrom_some hk
          rw [loopCutoff_of_zero_some hc ho hk (by omega)]
          exact (pyStrip_inf _).trans ( List.take_prefix k s).isInfix
      · rw [loopCutoff_of_pos hc ho hi]
        exact (pyStrip_inf _).trans ( List.take_prefix i s).isInfix
  · rw [loopCutoff_of_le hc]

/-- Applying `loopCutoff` again after the final whitespace strip is a no-op:
the sanitizer's stage 3 leaves at most one `Text:` occurrence behind. -/
theorem loopCutoff_pyStrip_loopCutoff (u : Str) :
    loopCutoff (pyStrip (loopCutoff u)) = pyStrip (loopCutoff u) := by
  apply loopCutoff_of_le
  intro hcount
  by_cases hfire : 1 < countSub textMarker u
  · cases ho : firstOcc textMarker u with
    | none =>
      obtain ⟨i, j, hfo, _⟩ := (one_lt_countSub_iff textMarker_ne_nil).mp hfire
      rw [ho] at hfo
      cases hfo
    | some i =>
      rcases Nat.eq_zero_or_pos i with hi | hi
      · subst hi
        cases hk : firstOccFrom textMarker u 5 with
        | none =>
          obtain ⟨i', j', hfo', hfo2'⟩ := (one_lt_countSub_iff textMarker_ne_nil).mp hfire
          rw [ho] at hfo'
          injection hfo' with hi'
          subst hi'
          rw [firstOccFrom] at hk
          cases hd : firstOcc textMarker (u.drop 5) with
          | some n => rw [hd] at hk; cases hk
          | none =>
            have h05 : (0 : Nat) + textMarker.length = 5 := rfl
            rw [h05, hd] at hfo2'
            cases hfo2'
        | some k =>
          obtain ⟨hk5, hkocc, hkmin⟩ := firstOccFrom_some hk
          rw [loopCutoff_of_zero_some hfire ho hk (by omega), pyStrip_idem] at hcount
          have hcount' : 1 < countSub textMarker (u.take k) :=
            one_lt_countSub_of_inf textMarker_ne_nil (pyStrip_inf _) hcount
          obtain ⟨i', j', hfo', hfo2'⟩ := (one_lt_countSub_iff textMarker_ne_nil).mp hcount'
          have hq := occ_of_firstOcc_drop hfo2'
          obtain ⟨hqocc, hqb⟩ := occ_take textMarker_ne_nil hq
          have hL : textMarker.length = 5 := rfl
          exact hkmin (i' + textMarker.length + j') (by omega) (by omega) hqocc
      · rw [loopCutoff_of_pos hfire ho hi, pyStrip_idem] at hcount
        have hcount' : 1 < countSub textMarker (u.take i) :=
          one_lt_countSub_of_inf textMarker_ne_nil (pyStrip_inf _) hcount
        obtain ⟨i', j', hfo', _⟩ := (one_lt_countSub_iff textMarker_ne_nil).mp hcount'
        rw [firstOcc_take_of_firstOcc textMarker_ne_nil ho] at hfo'
        cases hfo'
  · rw [loopCutoff_of_le hfire] at hcount
    exact hfire (one_lt_countSub_of_inf textMarker_ne_nil (pyStrip_inf u) hcount)

/-! ### `takeFirstSection` computation lemmas -/

theorem takeFirstSection_of_false {s : Str} (h : containsSub outputMarker s = false) :
    takeFirstSection s = s := by
  rw [takeFirstSection]
  simp [h]

theorem takeFirstSection_of_find_none {s : Str} (hc : containsSub outputMarker s = true)
    (hf : (splitOnSub outputMarker s).tail.find? (fun part => !(pyStrip part).isEmpty) = none) :
    takeFirstSection s = s := by
  rw [takeFirstSection, if_pos hc, hf]

theorem takeFirstSection_of_find_some {s part : Str}
    (hc : containsSub outputMarker s = true)
    (hf : (splitOnSub outputMarker s).tail.find? (fun part => !(pyStrip part).isEmpty) =
      some part) :
    takeFirstSection s = (splitOnSub paraBreak (pyStrip part)).headI := by
  rw [takeFirstSection, if_pos hc, hf]

theorem headI_mem {l : List Str} (h : l ≠ []) : l.headI ∈ l := by
  cases l with
  | nil => exact absurd rfl h
  | cons x t => exact List.mem_cons_self x t

/-- In the branch that picks a section, the result contains no further
`Output:` marker: it is a piece of a split part. -/
theorem takeFirstSection_some_inf {s part : Str}
    (hf : (splitOnSub outputMarker s).tail.find? (fun part => !(pyStrip part).isEmpty) =
      some part) :
    (splitOnSub paraBreak (pyStrip part)).headI <:+: part := by
  have hmem : (splitOnSub paraBreak (pyStrip part)).headI ∈ splitOnSub paraBreak (pyStrip part) :=
    headI_mem splitOnSub_ne_nil
  exact (splitOnSub_parts_inf paraBreak_ne_nil hmem).trans (pyStrip_inf part)

theorem tail_parts_contains_false {s part : Str}
    (hf : (splitOnSub outputMarker s).tail.find? (fun part => !(pyStrip part).isEmpty) =
      some part) : containsSub outputMarker part = false := by
  have hmem : part ∈ (splitOnSub outputMarker s).tail := List.mem_of_find?_eq_some hf
  have hfree := splitOnSub_parts_free outputMarker_ne_nil (List.mem_of_mem_tail hmem)
  exact containsSub_eq_false_iff.mpr hfree

/-! ### `joinSep` structure lemmas for the all-whitespace-tail case -/

theorem joinSep_append_last {sep : Str} {l : List Str} (x : Str) (hl : l ≠ []) :
    joinSep sep (l ++ [x]) = joinSep sep l ++ sep ++ x := by
  induction l with
  | nil => exact absurd rfl hl
  | cons a t ih =>
    cases t with
    | nil => rfl
    | cons b t' =>
      rw [List.cons_append, joinSep_cons_of_ne_nil (by simp),
        joinSep_cons_of_ne_nil (by simp), ih (by simp)]
      simp [List.append_assoc]

theorem noStraddle_outM :
    ∀ (b : Str) (j : Nat), 0 < j → j < outputMarker.length →
      ¬ (outputMarker.drop j <+: outputMarker ++ b) :=
  noStraddle_of_head (by decide)

theorem splitOnSub_joinSep {parts : List Str} (hne : parts ≠ [])
    (hfree : ∀ p ∈ parts, firstOcc outputMarker p = none) :
    splitOnSub outputMarker (joinSep outputMarker parts) = parts := by
  induction parts with
  | nil => exact absurd rfl hne
  | cons x t ih =>
    cases t with
    | nil =>
      exact splitOnSub_of_none outputMarker_ne_nil (hfree x (by simp))
    | cons y t' =>
      rw [joinSep_cons_of_ne_nil (by simp), List.append_assoc]
      have hx := hfree x (by simp)
      have hfo := firstOcc_append_marker (b := joinSep outputMarker (y :: t')) hx
        (noStraddle_outM _)
      rw [splitOnSub_of_some outputMarker_ne_nil hfo, List.take_left]
      have hdrop : (x ++ (outputMarker ++ joinSep outputMarker (y :: t'))).drop
          (x.length + outputMarker.length) = joinSep outputMarker (y :: t') := by
        rw [List.drop_append, List.drop_left]
      rw [hdrop, ih (by simp) (fun p hp => hfree p (List.mem_cons_of_mem x hp))]

theorem joinSep_chars {ps : List Str}
    (h : ∀ p ∈ ps, ∀ c ∈ p, isSpace c = true) :
    ∀ c ∈ joinSep outputMarker ps, c ∈ outputMarker ∨ isSpace c = true := by
  induction ps with
  | nil => intro c hc; cases hc
  | cons x t ih =>
    cases t with
    | nil =>
      intro c hc
      exact Or.inr (h x (by simp) c hc)
    | cons y t' =>
      rw [joinSep_cons_of_ne_nil (by simp)]
      intro c hc
      rcases List.mem_append.mp hc with hc1 | hc2
      · rcases List.mem_append.mp hc1 with hc3 | hc4
        · exact Or.inr (h x (by simp) c hc3)
        · exact Or.inl hc4
      · exact ih (fun p hp => h p (List.mem_cons_of_mem x hp)) c hc2

theorem contains_take_false {pat z : Str} {i n : Nat} (hpat : pat ≠ [])
    (ho : firstOcc pat z = some i) (hn : n ≤ i) :
    containsSub pat (z.take n) = false := by
  apply containsSub_eq_false_iff.mpr
  have hsub : z.take n = (z.take i).take n := by
    rw [List.take_take, Nat.min_eq_left hn]
  rw [hsub, firstOcc_eq_none_iff]
  intro q hq
  obtain ⟨hq2, _⟩ := occ_take hpat hq
  exact (firstOcc_eq_none_iff.mp (firstOcc_take_of_firstOcc hpat ho)) q hq2

theorem takeFirstSection_fix_of_free {u : Str} (hfree : containsSub outputMarker u = false) :
    takeFirstSection (pyStrip (loopCutoff u)) = pyStrip (loopCutoff u) := by
  apply takeFirstSection_of_false
  exact not_contains_mono hfree ((pyStrip_inf _).trans (loopCutoff_inf u))

/-- If every part after the first `Output:` marker is whitespace, stripping
the string leaves a (possibly empty) head followed by markers and whitespace,
and `takeFirstSection` then finds no non-empty section. -/
theorem takeFirstSection_pyStrip_of_ws_parts {z : Str} {i : Nat} {ps : List Str}
    (ho : firstOcc outputMarker z = some i)
    (hps : splitOnSub outputMarker (z.drop (i + outputMarker.length)) = ps)
    (hall : ∀ p ∈ ps, pyStrip p = []) :
    takeFirstSection (pyStrip z) = pyStrip z := by
  have hpsne : ps ≠ [] := by rw [← hps]; exact splitOnSub_ne_nil
  have hrest2 : joinSep outputMarker ps = z.drop (i + outputMarker.length) := by
    rw [← hps]
    exact joinSep_splitOnSub outputMarker_ne_nil _
  have hpartsfree : ∀ p ∈ ps, firstOcc outputMarker p = none := by
    intro p hp
    rw [← hps] at hp
    exact splitOnSub_parts_free outputMarker_ne_nil hp
  have hi_le : i + outputMarker.length ≤ z.length := firstOcc_add_le ho
  have hocc0 : outputMarker <+: z.drop i := firstOcc_some_occ ho
  have hrest : z.drop i = outputMarker ++ z.drop (i + outputMarker.length) :=
    occ_decomp hocc0
  have hrhead : (z.drop i).head? = some 'O' := by
    rw [hrest, head_append_of_ne_nil outputMarker_ne_nil]
    rfl
  have hslz : stripLeading z = stripLeading (z.take i) ++ z.drop i := by
    conv_lhs => rw [← List.take_append_drop i z]
    exact stripLeading_append_of_head hrhead (by decide)
  have hplws : ∀ c ∈ ps.getLast hpsne, isSpace c = true :=
    pyStrip_eq_nil_iff.mp (hall _ (List.getLast_mem hpsne))
  have hps_eq : ps.dropLast ++ [ps.getLast hpsne] = ps :=
    List.dropLast_append_getLast hpsne
  have hstrA : pyStrip z =
      joinSep outputMarker (stripLeading (z.take i) :: ps.dropLast) ++ outputMarker := by
    conv_lhs => rw [pyStrip, hslz, hrest, ← hrest2, ← List.append_assoc,
      ← joinSep_cons_of_ne_nil hpsne, ← hps_eq]
    conv_lhs => rw [show stripLeading (z.take i) :: (ps.dropLast ++ [ps.getLast hpsne]) =
        (stripLeading (z.take i) :: ps.dropLast) ++ [ps.getLast hpsne] from rfl,
      joinSep_append_last _ (by simp)]
    rw [stripTrailing_append_ws hplws]
    exact stripTrailing_append_of_last (w := outputMarker) (c := ':') (by decide) (by decide)
  have hy_eq : pyStrip z =
      joinSep outputMarker ((stripLeading (z.take i) :: ps.dropLast) ++ [[]]) := by
    rw [hstrA, joinSep_append_last _ (by simp), List.append_nil]
  have hp0free : firstOcc outputMarker (z.take i) = none :=
    firstOcc_take_of_firstOcc outputMarker_ne_nil ho
  have hfree' : ∀ p ∈ (stripLeading (z.take i) :: ps.dropLast) ++ [[]],
      firstOcc outputMarker p = none := by
    intro p hp
    rcases List.mem_append.mp hp with hp1 | hp2
    · rcases List.mem_cons.mp hp1 with rfl | hq
      · apply containsSub_eq_false_iff.mp
        apply not_contains_mono (containsSub_eq_false_iff.mpr hp0free)
        exact (stripLeading_suffix _).isInfix
      · exact hpartsfree p (List.dropLast_subset _ hq)
    · simp only [List.mem_singleton] at hp2
      subst hp2
      rfl
  have hsplit_y : splitOnSub outputMarker (pyStrip z) =
      (stripLeading (z.take i) :: ps.dropLast) ++ [[]] := by
    rw [hy_eq]
    exact splitOnSub_joinSep (by simp) hfree'
  have hcy : containsSub outputMarker (pyStrip z) = true := by
    rw [containsSub]
    apply Option.isSome_iff_exists.mpr
    have hoccy : outputMarker <+: (pyStrip z).drop
        (joinSep outputMarker (stripLeading (z.take i) :: ps.dropLast)).length := by
      rw [hstrA, List.drop_left]
    obtain ⟨j, _, hj⟩ := occ_firstOcc_le hoccy
    exact ⟨j, hj⟩
  have hfind : (splitOnSub outputMarker (pyStrip z)).tail.find?
      (fun part => !(pyStrip part).isEmpty) = none := by
    rw [hsplit_y]
    apply List.find?_eq_none.mpr
    intro p hp
    have hp' : p ∈ ps.dropLast ∨ p = [] := by simpa using hp
    have hpe : pyStrip p = [] := by
      rcases hp' with hq | hq
      · exact hall p (List.dropLast_subset _ hq)
      · subst hq
        rfl
    simp [hpe]
  exact takeFirstSection_of_find_none hcy hfind

/-- Running `takeFirstSection` again after the rest of the sanitizer pipeline
is a no-op: the output never contains an `Output:` marker followed by a
non-whitespace section. -/
theorem takeFirstSection_fix (z : Str) :
    takeFirstSection (pyStrip (loopCutoff (takeFirstSection z))) =
      pyStrip (loopCutoff (takeFirstSection z)) := by
  by_cases hc : containsSub outputMarker z = true
  case neg =>
    have hcf : containsSub outputMarker z = false := by
      cases h : containsSub outputMarker z
      · rfl
      · exact absurd h hc
    rw [takeFirstSection_of_false hcf]
    exact takeFirstSection_fix_of_free hcf
  case pos =>
    cases hf : (splitOnSub outputMarker z).tail.find? (fun part => !(pyStrip part).isEmpty) with
    | some part =>
      rw [takeFirstSection_of_find_some hc hf]
      apply takeFirstSection_fix_of_free
      exact not_contains_mono (tail_parts_contains_false hf) (takeFirstSection_some_inf hf)
    | none =>
      rw [takeFirstSection_of_find_none hc hf]
      have hc' : (firstOcc outputMarker z).isSome = true := hc
      obtain ⟨i, ho⟩ := Option.isSome_iff_exists.mp hc'
      have hsplit : splitOnSub outputMarker z =
          z.take i :: splitOnSub outputMarker (z.drop (i + outputMarker.length)) :=
        splitOnSub_of_some outputMarker_ne_nil ho
      have hpsne : splitOnSub outputMarker (z.drop (i + outputMarker.length)) ≠ [] :=
        splitOnSub_ne_nil
      have hall : ∀ p ∈ splitOnSub outputMarker (z.drop (i + outputMarker.length)),
          pyStrip p = [] := by
        intro p hp
        rw [hsplit] at hf
        have := List.find?_eq_none.mp hf p hp
        simpa using this
      have hi_le : i + outputMarker.length ≤ z.length := firstOcc_add_le ho
      have hlen_p0 : (z.take i).length = i := by
        simp only [List.length_take]
        omega
      have hocc0 : outputMarker <+: z.drop i := firstOcc_some_occ ho
      have hrest : z.drop i = outputMarker ++ z.drop (i + outputMarker.length) :=
        occ_decomp hocc0
      have hrest2 : joinSep outputMarker
          (splitOnSub outputMarker (z.drop (i + outputMarker.length))) =
          z.drop (i + outputMarker.length) :=
        joinSep_splitOnSub outputMarker_ne_nil _
      have hchars : ∀ c ∈ z.drop i, c ∈ outputMarker ∨ isSpace c = true := by
        intro c hcmem
        rw [hrest] at hcmem
        rcases List.mem_append.mp hcmem with h1 | h2
        · exact Or.inl h1
        · rw [← hrest2] at h2
          exact joinSep_chars
            (fun p hp c' hcp => pyStrip_eq_nil_iff.mp (hall p hp) c' hcp) c h2
      have hrhead : (z.drop i).head? = some 'O' := by
        rw [hrest, head_append_of_ne_nil outputMarker_ne_nil]
        rfl
      have hA : ∀ q, textMarker <+: z.drop q → q + textMarker.length ≤ i := by
        intro q hq
        rw [← List.take_append_drop i z] at hq
        rcases occ_append_cases hq with ⟨hb, _⟩ | ⟨hb, hocc'⟩ | ⟨h1, h2, h3⟩
        · rwa [hlen_p0] at hb
        · exfalso
          have he : ('e' : Char) ∈ textMarker := by decide
          have hez : ('e' : Char) ∈ z.drop i := List.drop_subset _ _ (hocc'.subset he)
          rcases hchars 'e' hez with hmem | hws
          · revert hmem; decide
          · revert hws; decide
        · exfalso
          rw [hlen_p0] at h1 h2 h3
          have hd5 : textMarker.length = 5 := rfl
          rw [hd5] at h2
          set j := i - q with hj
          have hj1 : 0 < j := by omega
          have hj2 : j < 5 := by omega
          refine not_pfx_of_head_ne ?_ ?_ h3
          · apply List.ne_nil_of_length_pos
            simp only [List.length_drop, hd5]
            omega
          · rw [hrhead]
            interval_cases j <;> decide
      by_cases hfire : 1 < countSub textMarker z
      · cases ho2 : firstOcc textMarker z with
        | none =>
          obtain ⟨i', j', hfo', _⟩ := (one_lt_countSub_iff textMarker_ne_nil).mp hfire
          rw [ho2] at hfo'
          cases hfo'
        | some i0 =>
          rcases Nat.eq_zero_or_pos i0 with hz0 | hz0
          · subst hz0
            cases hk : firstOccFrom textMarker z 5 with
            | none =>
              obtain ⟨i', j', hfo', hfo2'⟩ :=
                (one_lt_countSub_iff textMarker_ne_nil).mp hfire
              rw [ho2] at hfo'
              injection hfo' with hi'
              subst hi'
              rw [firstOccFrom] at hk
              cases hd : firstOcc textMarker (z.drop 5) with
              | some n => rw [hd] at hk; cases hk
              | none =>
                have h05 : (0 : Nat) + textMarker.length = 5 := rfl
                rw [h05, hd] at hfo2'
                cases hfo2'
            | some k =>
              obtain ⟨hk5, hkocc, _⟩ := firstOccFrom_some hk
              rw [loopCutoff_of_zero_some hfire ho2 hk (by omega), pyStrip_idem]
              apply takeFirstSection_of_false
              have hkle := hA k hkocc
              exact not_contains_mono
                (contains_take_false outputMarker_ne_nil ho (by omega)) (pyStrip_inf _)
          · rw [loopCutoff_of_pos hfire ho2 hz0, pyStrip_idem]
            apply takeFirstSection_of_false
            have hle := hA i0 (firstOcc_some_occ ho2)
            exact not_contains_mono
              (contains_take_false outputMarker_ne_nil ho (by omega)) (pyStrip_inf _)
      · rw [loopCutoff_of_le hfire]
        exact takeFirstSection_pyStrip_of_ws_parts ho rfl hall

/-- Idempotence of the sanitizer holds whenever reasoning-block removal leaves
the first pass's output unchanged (it can fail to, when removing a block
splices the surrounding text into a new `<think>…</think>` pair). -/
theorem clean_fix_aux {x : Str}
    (hx : stripThink (clean_model_response x) = clean_model_response x) :
    clean_model_response (clean_model_response x) = clean_model_response x := by
  by_cases hempty : x.isEmpty = true
  · have hxnil : x = [] := by
      cases x with
      | nil => rfl
      | cons c t => simp at hempty
    subst hxnil
    rfl
  · have hcx : clean_model_response x =
        pyStrip (loopCutoff (takeFirstSection (stripThink x))) := by
      rw [clean_model_response, if_neg hempty]
    rw [hcx] at hx ⊢
    by_cases hyempty :
        (pyStrip (loopCutoff (takeFirstSection (stripThink x)))).isEmpty = true
    · rw [clean_model_response, if_pos hyempty]
    · rw [clean_model_response, if_neg hyempty, hx,
        takeFirstSection_fix (stripThink x),
        loopCutoff_pyStrip_loopCutoff (takeFirstSection (stripThink x)),
        pyStrip_idem]

/-! ### Reasoning-block removal: the generic one-block lemma -/

theorem noStraddle_thinkClose :
    ∀ (b : Str) (j : Nat), 0 < j → j < thinkClose.length →
      ¬ (thinkClose.drop j <+: thinkClose ++ b) :=
  noStraddle_of_head (by decide)

/-- One `<think>…</think>` block whose body contains no close marker is removed
wholesale, and scanning continues after it (so repeated blocks are removed in
turn, multi-line bodies included). -/
theorem stripThink_block (a b : Str) (ha : firstOcc thinkClose a = none) :
    stripThink (thinkOpen ++ a ++ (thinkClose ++ b)) = stripThink b := by
  rw [stripThink_eq]
  have hopen : firstOcc thinkOpen (thinkOpen ++ a ++ (thinkClose ++ b)) = some 0 :=
    firstOcc_of_prefix (by rw [List.append_assoc]; exact List.prefix_append _ _)
  rw [hopen]
  show (match firstOcc thinkClose
        ((thinkOpen ++ a ++ (thinkClose ++ b)).drop (0 + thinkOpen.length)) with
      | none => thinkOpen ++ a ++ (thinkClose ++ b)
      | some j =>
        (thinkOpen ++ a ++ (thinkClose ++ b)).take 0 ++
          stripThink ((thinkOpen ++ a ++ (thinkClose ++ b)).drop
            (0 + thinkOpen.length + j + thinkClose.length))) = stripThink b
  have hdrop7 : (thinkOpen ++ a ++ (thinkClose ++ b)).drop (0 + thinkOpen.length) =
      a ++ (thinkClose ++ b) := by
    rw [List.append_assoc, Nat.zero_add, List.drop_left]
  rw [hdrop7]
  have hclose : firstOcc thinkClose (a ++ (thinkClose ++ b)) = some a.length :=
    firstOcc_append_marker ha (noStraddle_thinkClose _)
  rw [hclose]
  show (thinkOpen ++ a ++ (thinkClose ++ b)).take 0 ++
      stripThink ((thinkOpen ++ a ++ (thinkClose ++ b)).drop
        (0 + thinkOpen.length + a.length + thinkClose.length)) = stripThink b
  have hdropall : (thinkOpen ++ a ++ (thinkClose ++ b)).drop
      (0 + thinkOpen.length + a.length + thinkClose.length) = b := by
    rw [Nat.zero_add]
    have hshape : thinkOpen ++ a ++ (thinkClose ++ b) =
        (thinkOpen ++ a ++ thinkClose) ++ b := by
      simp [List.append_assoc]
    have hlen : thinkOpen.length + a.length + thinkClose.length =
        (thinkOpen ++ a ++ thinkClose).length := by
      simp only [List.length_append]
    rw [hshape, hlen, List.drop_left]
  rw [hdropall]
  rfl

/-! ### The server model: state, requests, endpoint handlers

The global mutable state of `server.py` (`model`, `tokenizer`,
`current_model_path`) is modelled as an explicit record, parametrised over
the opaque handle types `M` (model weights) and `T` (tokenizer); the external
`mlx_lm` calls are oracle functions supplied per call. -/

structure ServerState (M T : Type) where
  model : Option M
  tokenizer : Option T
  current_model_path : Option Str
deriving DecidableEq

/-- Process start: no model resident. -/
def initState (M T : Type) : ServerState M T := ⟨none, none, none⟩

structure HTTPError where
  status_code : Nat
  detail : Str
deriving DecidableEq

structure LoadRequest where
  model_path : Str
deriving DecidableEq

structure LoadResponse where
  status : Str
  model_path : Str
deriving DecidableEq

structure StatusResponse where
  status : Str
  model_loaded : Bool
  model_path : Option Str
deriving DecidableEq

/-- `GET /status` (`server.py` lines 94-101). -/
def get_status {M T : Type} (st : ServerState M T) : StatusResponse :=
  ⟨"running".data, st.model.isSome, st.current_model_path⟩

/-- `POST /load` (`server.py` lines 104-137). `loader` models `mlx_lm.load`:
it either yields a fresh handle/tokenizer pair or raises. The previous pair
is dropped before the new load; on failure the recorded path is untouched. -/
def load_model {M T : Type} (loader : Str → Except Str (M × T))
    (st : ServerState M T) (request : LoadRequest) :
    ServerState M T × Except HTTPError LoadResponse :=
  let st1 : ServerState M T :=
    if st.model.isSome then { st with model := none, tokenizer := none } else st
  match loader request.model_path with
  | .ok (m, t) =>
    (⟨some m, some t, some request.model_path⟩,
      .ok ⟨"loaded".data, request.model_path⟩)
  | .error e =>
    (st1, .error ⟨500, "Failed to load model: ".data ++ e⟩)

/-- Outcome of `POST /unload`: new state, response, and logged warnings. -/
structure UnloadResult (M T : Type) where
  state : ServerState M T
  response : Except HTTPError StatusResponse
  warnings : List Str

/-- `POST /unload` (`server.py` lines 252-281). `clearCache` models
`mx.metal.clear_cache()`; its failure is caught and only logged. -/
def unload_model {M T : Type} (clearCache : Except Str Unit)
    (st : ServerState M T) : UnloadResult M T :=
  if st.model.isNone then
    ⟨st, .ok ⟨"no_model_loaded".data, false, none⟩, []⟩
  else
    ⟨⟨none, none, none⟩, .ok ⟨"unloaded".data, false, none⟩,
      match clearCache with
      | .ok _ => []
      | .error e => ["Failed to clear MLX Metal cache: ".data ++ e]⟩

/-- The pydantic model for `POST /generate` (`server.py` lines 45-49): only
`prompt`, `max_tokens` (default 150) and `temperature` (default 0.7). -/
structure GenerateRequest where
  prompt : Str
  max_tokens : Int
  temperature : Rat
deriving DecidableEq

/-- A raw JSON body for `POST /generate`; a caller may also send `top_p` and
`min_p`, fields `GenerateRequest` does not declare. -/
structure RawGenerateBody where
  prompt : Str
  max_tokens : Option Int
  temperature : Option Rat
  top_p : Option Rat
  min_p : Option Rat

/-- Pydantic parsing of the body into `GenerateRequest`: declared fields get
their defaults when omitted; undeclared fields (`top_p`, `min_p`) are
silently ignored. -/
def parseGenerateRequest (b : RawGenerateBody) : GenerateRequest :=
  ⟨b.prompt, b.max_tokens.getD 150, b.temperature.getD (7 / 10)⟩

structure SamplerArgs where
  temp : Rat
  top_p : Rat
  min_tokens_to_keep : Nat
deriving DecidableEq

structure LogitsProcessorsArgs where
  repetition_penalty : Rat
  repetition_context_size : Nat
deriving DecidableEq

/-- The `make_sampler` call in `generate_text` (`server.py` lines 184-188):
temperature from the request, `top_p` hardcoded to 0.8, and at least one
candidate token always kept. -/
def make_sampler_args (request : GenerateRequest) : SamplerArgs :=
  ⟨request.temperature, 4 / 5, 1⟩

/-- The `make_logits_processors` call (`server.py` lines 191-195). -/
def make_logits_processors_args : LogitsProcessorsArgs := ⟨23 / 20, 64⟩

/-- Outcome of `tokenizer.apply_chat_template(..., enable_thinking=False)`:
success, a `TypeError` (the toggle is unsupported), or another exception. -/
inductive TemplateOutcome where
  | ok (formatted : Str)
  | typeError
  | failure (msg : Str)

structure GenerateResponse where
  response : Str
  tokens_generated : Nat
deriving DecidableEq

/-- Oracles for the external calls made inside `generate_text`. -/
structure GenEnv (M T : Type) where
  template_thinking : T → Str → TemplateOutcome
  template_default : T → Str → Except Str Str
  decode : M → T → Str → Int → SamplerArgs → LogitsProcessorsArgs → Except Str Str
  encode : T → Str → List Nat

/-- `POST /generate` (`server.py` lines 140-249). The empty-slot check comes
first, before any template or decode work; failures of the external calls
are converted to a 500 "Generation failed" error; the decoded text is
sanitized and re-encoded for the token count. -/
def generate_text {M T : Type} (env : GenEnv M T) (st : ServerState M T)
    (request : GenerateRequest) : Except HTTPError GenerateResponse :=
  match st.model, st.tokenizer with
  | some m, some t =>
    let fmt : Except Str Str :=
      match env.template_thinking t request.prompt with
      | .ok f => .ok f
      | .typeError => env.template_default t request.prompt
      | .failure e => .error e
    match fmt with
    | .error e => .error ⟨500, "Generation failed: ".data ++ e⟩
    | .ok formatted =>
      match env.decode m t formatted request.max_tokens (make_sampler_args request)
          make_logits_processors_args with
      | .error e => .error ⟨500, "Generation failed: ".data ++ e⟩
      | .ok raw =>
        let response := clean_model_response raw
        .ok ⟨response, if response.isEmpty then 0 else (env.encode t response).length⟩
  | _, _ => .error ⟨400, "No model loaded. Call /load first.".data⟩

/-- One lifecycle operation together with its external-world outcome. -/
inductive Op (M T : Type) where
  | load (request : LoadRequest) (loader : Str → Except Str (M × T))
  | unload (clearCache : Except Str Unit)

def applyOp {M T : Type} (st : ServerState M T) : Op M T → ServerState M T
  | .load request loader => (load_model loader st request).1
  | .unload clearCache => (unload_model clearCache st).state

def runOps {M T : Type} (st : ServerState M T) (ops : List (Op M T)) : ServerState M T :=
  ops.foldl applyOp st

def Op.isSuccessfulLoad {M T : Type} : Op M T → Bool
  | .load request loader =>
    match loader request.model_path with
    | .ok _ => true
    | .error _ => false
  | .unload _ => false

/-! ### Endpoint computation lemmas -/

theorem load_model_ok {M T : Type} {loader : Str → Except Str (M × T)}
    {st : ServerState M T} {request : LoadRequest} {m : M} {t : T}
    (h : loader request.model_path = .ok (m, t)) :
    load_model loader st request =
      (⟨some m, some t, some request.model_path⟩,
        .ok ⟨"loaded".data, request.model_path⟩) := by
  rw [load_model, h]

theorem load_model_err {M T : Type} {loader : Str → Except Str (M × T)}
    {st : ServerState M T} {request : LoadRequest} {e : Str}
    (h : loader request.model_path = .error e) :
    load_model loader st request =
      (if st.model.isSome then { st with model := none, tokenizer := none } else st,
        .error ⟨500, "Failed to load model: ".data ++ e⟩) := by
  rw [load_model, h]

theorem unload_model_empty {M T : Type} {clearCache : Except Str Unit}
    {st : ServerState M T} (h : st.model = none) :
    unload_model clearCache st =
      ⟨st, .ok ⟨"no_model_loaded".data, false, none⟩, []⟩ := by
  rw [unload_model.eq_def, if_pos (by rw [h]; rfl)]

theorem unload_model_loaded {M T : Type} {clearCache : Except Str Unit}
    {st : ServerState M T} {m : M} (h : st.model = some m) :
    unload_model clearCache st =
      ⟨⟨none, none, none⟩, .ok ⟨"unloaded".data, false, none⟩,
        match clearCache with
        | .ok _ => []
        | .error e => ["Failed to clear MLX Metal cache: ".data ++ e]⟩ := by
  rw [unload_model.eq_def, if_neg (by rw [h]; simp)]

theorem generate_text_empty {M T : Type} (env : GenEnv M T) (st : ServerState M T)
    (request : GenerateRequest) (h : st.model = none ∨ st.tokenizer = none) :
    generate_text env st request =
      .error ⟨400, "No model loaded. Call /load first.".data⟩ := by
  rw [generate_text]
  rcases h with h | h
  · rw [h]
    all_goals first
    | rfl
    | cases st.tokenizer <;> rfl
  · rw [h]
    all_goals first
    | rfl
    | cases st.model <;> rfl

/-! ### Lifecycle invariants -/

theorem applyOp_consistent {M T : Type} (op : Op M T) (st : ServerState M T)
    (h : st.model.isSome = st.tokenizer.isSome) :
    (applyOp st op).model.isSome = (applyOp st op).tokenizer.isSome := by
  cases op with
  | load request loader =>
    cases hl : loader request.model_path with
    | ok mt =>
      obtain ⟨m, t⟩ := mt
      rw [applyOp, load_model_ok hl]
      rfl
    | error e =>
      rw [applyOp, load_model_err hl]
      by_cases hm : st.model.isSome
      · rw [if_pos hm]
        rfl
      · rw [if_neg hm]
        exact h
  | unload clearCache =>
    cases hm : st.model with
    | none =>
      rw [applyOp, unload_model_empty hm]
      exact h
    | some m =>
      rw [applyOp, unload_model_loaded hm]
      rfl

theorem runOps_consistent_from {M T : Type} (ops : List (Op M T)) :
    ∀ (st : ServerState M T), st.model.isSome = st.tokenizer.isSome →
      (runOps st ops).model.isSome = (runOps st ops).tokenizer.isSome := by
  induction ops with
  | nil => intro st h; exact h
  | cons op rest ih => intro st h; exact ih _ (applyOp_consistent op st h)

theorem runOps_empty_of_no_successful_load {M T : Type} (ops : List (Op M T)) :
    ∀ (st : ServerState M T), (∀ op ∈ ops, op.isSuccessfulLoad = false) →
      st.model = none → st.tokenizer = none →
      (runOps st ops).model = none ∧ (runOps st ops).tokenizer = none := by
  induction ops with
  | nil => intro st _ h1 h2; exact ⟨h1, h2⟩
  | cons op rest ih =>
    intro st h h1 h2
    have hop := h op (List.mem_cons_self _ _)
    have hstep : (applyOp st op).model = none ∧ (applyOp st op).tokenizer = none := by
      cases op with
      | load request loader =>
        rw [Op.isSuccessfulLoad] at hop
        cases hl : loader request.model_path with
        | ok mt =>
          rw [hl] at hop
          simp at hop
        | error e =>
          rw [applyOp, load_model_err hl]
          simp [h1, h2]
      | unload clearCache =>
        rw [applyOp, unload_model_empty h1]
        exact ⟨h1, h2⟩
    exact ih _ (fun o ho => h o (List.mem_cons_of_mem _ ho)) hstep.1 hstep.2

/-! ### A spec-level restatement of the first-section extraction -/

/-- Truncation at the first blank-line boundary: only the first paragraph
survives. -/
def firstParagraph (w : Str) : Str := w.take ((firstOcc paraBreak w).getD w.length)

/-- Modelled from the spec: "if a designated answer marker token appears in
the text, split on it; scan the parts after the first split point, skipping
any part that is empty after trimming, and take the first non-empty part;
truncate that part at the first blank-line boundary. If the marker never
appears, this stage is a no-op." -/
def takeFirstSectionSpec (s : Str) : Str :=
  if containsSub outputMarker s then
    match ((splitOnSub outputMarker s).drop 1).filter
        (fun part => !(pyStrip part).isEmpty) with
    | [] => s
    | part :: _ => firstParagraph (pyStrip part)
  else s

theorem find_eq_head_filter (p : Str → Bool) (l : List Str) :
    l.find? p = (l.filter p).head? := by
  induction l with
  | nil => rfl
  | cons x t ih =>
    by_cases hx : p x = true
    · rw [List.find?_cons_of_pos _ hx, List.filter_cons_of_pos hx, List.head?_cons]
    · rw [List.find?_cons_of_neg _ (by simp [hx]),
        List.filter_cons_of_neg (by simp [hx]), ih]

theorem splitOnSub_headI (w : Str) :
    (splitOnSub paraBreak w).headI = firstParagraph w := by
  rw [firstParagraph]
  cases ho : firstOcc paraBreak w with
  | none =>
    rw [splitOnSub_of_none paraBreak_ne_nil ho]
    simp [List.take_length]
  | some i =>
    rw [splitOnSub_of_some paraBreak_ne_nil ho]
    rfl

theorem takeFirstSection_eq_spec (s : Str) :
    takeFirstSection s = takeFirstSectionSpec s := by
  by_cases hc : containsSub outputMarker s = true
  · cases hf : (splitOnSub outputMarker s).tail.find?
        (fun part => !(pyStrip part).isEmpty) with
    | none =>
      rw [takeFirstSection_of_find_none hc hf, takeFirstSectionSpec, if_pos hc]
      rw [find_eq_head_filter, ← List.drop_one] at hf
      cases hfil : ((splitOnSub outputMarker s).drop 1).filter
          (fun part => !(pyStrip part).isEmpty) with
      | nil => rfl
      | cons part rest =>
        rw [hfil, List.head?_cons] at hf
        cases hf
    | some part =>
      rw [takeFirstSection_of_find_some hc hf, takeFirstSectionSpec, if_pos hc]
      rw [find_eq_head_filter, ← List.drop_one] at hf
      cases hfil : ((splitOnSub outputMarker s).drop 1).filter
          (fun part => !(pyStrip part).isEmpty) with
      | nil =>
        rw [hfil] at hf
        cases hf
      | cons part' rest =>
        rw [hfil, List.head?_cons] at hf
        injection hf with hpart
        subst hpart
        exact splitOnSub_headI _
  · have hcf : containsSub outputMarker s = false := by
      cases h : containsSub outputMarker s
      · rfl
      · exact absurd h hc
    rw [takeFirstSection_of_false hcf, takeFirstSectionSpec, if_neg hc]

/-! ### The claims -/

/-- C1: calling `generate_text` while no model is loaded always fails with
the HTTP 400 precondition error `No model loaded. Call /load first.` — for
every oracle environment, hence before any chat-formatting or decoding work
happens — and after any sequence of lifecycle operations containing no
successful load the slot is still empty, so generate before any successful
load never crashes and never yields a 500 generation failure. -/
theorem C1_generate_empty_slot_precondition_error :
    (∀ (env : GenEnv Nat Nat) (st : ServerState Nat Nat) (request : GenerateRequest),
      st.model = none ∨ st.tokenizer = none →
      generate_text env st request =
        .error ⟨400, "No model loaded. Call /load first.".data⟩) ∧
    (∀ (ops : List (Op Nat Nat)) (env : GenEnv Nat Nat) (request : GenerateRequest),
      (∀ op ∈ ops, op.isSuccessfulLoad = false) →
      generate_text env (runOps (initState Nat Nat) ops) request =
        .error ⟨400, "No model loaded. Call /load first.".data⟩) := by
  constructor
  · exact fun env st request h => generate_text_empty env st request h
  · intro ops env request h
    obtain ⟨h1, _⟩ := runOps_empty_of_no_successful_load ops (initState Nat Nat) h rfl rfl
    exact generate_text_empty env _ request (Or.inl h1)

theorem C1_witness :
    generate_text
      ⟨fun _ _ => .ok [], fun _ _ => .ok [], fun _ _ _ _ _ _ => .ok [], fun _ _ => []⟩
      (runOps (initState Nat Nat)
        [Op.unload (.ok ()), Op.load ⟨"XYZ".data⟩ (fun _ => .error "boom".data)])
      ⟨"hi".data, 150, 7 / 10⟩ =
      .error ⟨400, "No model loaded. Call /load first.".data⟩ :=
  C1_generate_empty_slot_precondition_error.2
    [Op.unload (.ok ()), Op.load ⟨"XYZ".data⟩ (fun _ => .error "boom".data)] _ _
    (by
      intro op hop
      rcases List.mem_cons.mp hop with rfl | hop2
      · rfl
      · rcases List.mem_cons.mp hop2 with rfl | hop3
        · rfl
        · cases hop3)

/-- C2: after any sequence of load and unload operations from process start,
successful or failed, the slot's model handle and tokenizer are both present
or both absent — never one set without the other. -/
theorem C2_slot_handle_tokenizer_agree {M T : Type} (ops : List (Op M T)) :
    (runOps (initState M T) ops).model.isSome =
      (runOps (initState M T) ops).tokenizer.isSome :=
  runOps_consistent_from ops (initState M T) rfl

/-- C3: the sanitizer never fails — empty and absent inputs yield the empty
string — and removes every substring delimited by the `<think>`/`</think>`
pair, non-greedily per block (the body contains no close marker), across
newlines, repeated for multiple blocks (processing continues on the
remainder); in particular it maps `"<think>X</think>Y"` to `"Y"`. -/
theorem C3_sanitizer_total_removes_think_blocks :
    clean_model_response [] = [] ∧
    clean_model_response_opt none = [] ∧
    (∀ a b : Str, firstOcc thinkClose a = none →
      stripThink (thinkOpen ++ a ++ (thinkClose ++ b)) = stripThink b) ∧
    clean_model_response "<think>X</think>Y".data = "Y".data :=
  ⟨rfl, rfl, fun a b ha => stripThink_block a b ha, by decide⟩

theorem C3_witness :
    firstOcc thinkClose "Step 1\nStep 2".data = none ∧
    stripThink (thinkOpen ++ "Step 1\nStep 2".data ++ (thinkClose ++ "Answer".data)) =
      stripThink "Answer".data :=
  ⟨by decide,
    C3_sanitizer_total_removes_think_blocks.2.2.1 "Step 1\nStep 2".data "Answer".data
      (by decide)⟩

/-- C4: the first-section extraction stage equals its spec description —
split on `Output:`, scan only parts after the first split point, skip parts
empty after trimming, take the first non-empty one, truncate it at the first
double newline — it is a no-op when the marker is absent, and in particular
the sanitizer maps `"Output: Hello\n\nOutput: World"` to `"Hello"`. -/
theorem C4_first_section_extraction :
    (∀ s, takeFirstSection s = takeFirstSectionSpec s) ∧
    (∀ s, containsSub outputMarker s = false → takeFirstSection s = s) ∧
    clean_model_response "Output: Hello\n\nOutput: World".data = "Hello".data :=
  ⟨takeFirstSection_eq_spec, fun _ h => takeFirstSection_of_false h, by decide⟩

theorem C4_witness :
    containsSub outputMarker "plain text".data = false ∧
    takeFirstSection "plain text".data = "plain text".data :=
  ⟨by decide, C4_first_section_extraction.2.1 "plain text".data (by decide)⟩

/-- C5: the loop-cutoff stage fires only when `Text:` occurs more than once;
it then truncates at the first occurrence (keeping the trimmed text before
it) except when that occurrence is at position zero, in which case it
truncates at the occurrence found from index 5; in particular the sanitizer
maps `"Hello world Text: repeated Text: again"` to `"Hello world"`. -/
theorem C5_loop_cutoff :
    (∀ s, countSub textMarker s ≤ 1 → loopCutoff s = s) ∧
    (∀ s i, 1 < countSub textMarker s → firstOcc textMarker s = some i → 0 < i →
      loopCutoff s = pyStrip (s.take i)) ∧
    (∀ s k, 1 < countSub textMarker s → firstOcc textMarker s = some 0 →
      firstOccFrom textMarker s 5 = some k → loopCutoff s = pyStrip (s.take k)) ∧
    clean_model_response "Hello world Text: repeated Text: again".data =
      "Hello world".data := by
  refine ⟨?_, ?_, ?_, by decide⟩
  · intro s h
    exact loopCutoff_of_le (by omega)
  · intro s i hc ho hi
    exact loopCutoff_of_pos hc ho hi
  · intro s k hc ho hk
    obtain ⟨hk5, _, _⟩ := firstOccFrom_some hk
    exact loopCutoff_of_zero_some hc ho hk (by omega)

theorem C5_witness :
    1 < countSub textMarker "Hello world Text: repeated Text: again".data ∧
    firstOcc textMarker "Hello world Text: repeated Text: again".data = some 12 ∧
    0 < 12 ∧
    loopCutoff "Hello world Text: repeated Text: again".data =
      pyStrip ("Hello world Text: repeated Text: again".data.take 12) :=
  ⟨by decide, by decide, by decide,
    C5_loop_cutoff.2.1 "Hello world Text: repeated Text: again".data 12 (by decide)
      (by decide) (by decide)⟩

/-- C6 (counterexample): the sanitizer is not idempotent. Removing the block
`<think>A</think>` from `"<thi<think>A</think>nk>B</think>C"` splices the
surrounding text into a fresh `"<think>B</think>C"`, which a second pass
reduces further to `"C"`. -/
theorem C6_counterexample :
    clean_model_response
        (clean_model_response "<thi<think>A</think>nk>B</think>C".data) ≠
      clean_model_response "<thi<think>A</think>nk>B</think>C".data := by
  decide

/-- C6 (amended): the sanitizer is idempotent on every input on which
reasoning-block removal leaves the first pass's output unchanged, i.e.
whenever stripping does not re-form a `<think>…</think>` pair out of the
surrounding text; the other three stages never reintroduce removed
content. -/
theorem C6_amended_idempotent_unless_reformed_block (x : Str)
    (hx : stripThink (clean_model_response x) = clean_model_response x) :
    clean_model_response (clean_model_response x) = clean_model_response x :=
  clean_fix_aux hx

theorem C6_witness :
    stripThink (clean_model_response "Output: Hello\n\nOutput: World".data) =
        clean_model_response "Output: Hello\n\nOutput: World".data ∧
    clean_model_response
        (clean_model_response "Output: Hello\n\nOutput: World".data) =
      clean_model_response "Output: Hello\n\nOutput: World".data :=
  ⟨by decide,
    C6_amended_idempotent_unless_reformed_block "Output: Hello\n\nOutput: World".data
      (by decide)⟩

/-- C7 (counterexample): a `top_p` value supplied in the generate request
body is not honored by the sampler — `GenerateRequest` declares no such
field, so pydantic drops it and `make_sampler` always receives the
hardcoded 0.8. -/
theorem C7_counterexample :
    (make_sampler_args (parseGenerateRequest
      ⟨"hi".data, none, none, some (1 / 2), none⟩)).top_p ≠ (1 / 2 : Rat) := by
  show (4 / 5 : Rat) ≠ 1 / 2
  norm_num

/-- C7 (amended): the sampler is built from the request's temperature alone
(default 0.7 when omitted), with `top_p` hardcoded to 0.8 and a
min-tokens-to-keep floor of 1; `top_p`/`min_p` sent in the body are ignored,
and the repetition-penalty stage is fixed at strength 1.15 with a 64-token
lookback window. -/
theorem C7_amended_sampler_fixed_args (b : RawGenerateBody) :
    make_sampler_args (parseGenerateRequest b) =
      ⟨b.temperature.getD (7 / 10), 4 / 5, 1⟩ ∧
    (∀ x y, make_sampler_args (parseGenerateRequest { b with top_p := x, min_p := y }) =
      make_sampler_args (parseGenerateRequest b)) ∧
    make_logits_processors_args = ⟨23 / 20, 64⟩ :=
  ⟨rfl, fun _ _ => rfl, rfl⟩

/-- C8: unload never returns an error: on an empty slot it is a no-op
returning status `no_model_loaded` with `model_loaded = false` and no
warnings; on a loaded slot it clears the slot and returns status `unloaded`
with `model_loaded = false` and `model_path = null`; and the response and
resulting state are independent of whether the accelerator-cache release
fails (a failure only adds a warning). -/
theorem C8_unload_never_errors {M T : Type} (st : ServerState M T)
    (clearCache : Except Str Unit) :
    (st.model = none →
      unload_model clearCache st =
        ⟨st, .ok ⟨"no_model_loaded".data, false, none⟩, []⟩) ∧
    (∀ m, st.model = some m →
      (unload_model clearCache st).state = ⟨none, none, none⟩ ∧
      (unload_model clearCache st).response = .ok ⟨"unloaded".data, false, none⟩) ∧
    (∃ r : StatusResponse, (unload_model clearCache st).response = .ok r ∧
      r.model_loaded = false) ∧
    (unload_model clearCache st).response = (unload_model (.ok ()) st).response ∧
    (unload_model clearCache st).state = (unload_model (.ok ()) st).state := by
  refine ⟨fun h => unload_model_empty h, fun m h => ?_, ?_, ?_, ?_⟩
  · rw [unload_model_loaded h]
    exact ⟨rfl, rfl⟩
  · cases hm : st.model with
    | none =>
      rw [unload_model_empty hm]
      exact ⟨_, rfl, rfl⟩
    | some m =>
      rw [unload_model_loaded hm]
      exact ⟨_, rfl, rfl⟩
  · cases hm : st.model with
    | none => rw [unload_model_empty hm, unload_model_empty hm]
    | some m => rw [unload_model_loaded hm, unload_model_loaded hm]
  · cases hm : st.model with
    | none => rw [unload_model_empty hm, unload_model_empty hm]
    | some m => rw [unload_model_loaded hm, unload_model_loaded hm]

theorem C8_witness :
    (unload_model (.error "boom".data)
        (⟨some 1, some 2, some "m".data⟩ : ServerState Nat Nat)).state =
      ⟨none, none, none⟩ ∧
    (unload_model (.error "boom".data)
        (⟨some 1, some 2, some "m".data⟩ : ServerState Nat Nat)).response =
      .ok ⟨"unloaded".data, false, none⟩ :=
  (C8_unload_never_errors (⟨some 1, some 2, some "m".data⟩ : ServerState Nat Nat)
    (.error "boom".data)).2.1 1 rfl

/-- C9 (counterexample): the 500 error response of a failed load does not
carry the offending path — its detail is `Failed to load model: <cause>`,
which for path `XYZ` and cause `boom` contains no `XYZ`. -/
theorem C9_counterexample :
    (load_model (fun _ => .error "boom".data) (initState Nat Nat) ⟨"XYZ".data⟩).2 =
      .error ⟨500, "Failed to load model: boom".data⟩ ∧
    containsSub "XYZ".data "Failed to load model: boom".data = false := by
  exact ⟨rfl, by decide⟩

/-- C9 (amended): after any load call whose source fails to resolve or
instantiate (from a slot-consistent state), the slot is left empty — a
status query reports `model_loaded = false` — with no partial state from
the failed attempt, and the error response is a 500 carrying the underlying
cause, while the handler returns normally. -/
theorem C9_amended_failed_load_leaves_slot_empty {M T : Type}
    (st : ServerState M T) (loader : Str → Except Str (M × T))
    (request : LoadRequest) (e : Str)
    (hcons : st.model.isSome = st.tokenizer.isSome)
    (h : loader request.model_path = .error e) :
    (load_model loader st request).1.model = none ∧
    (load_model loader st request).1.tokenizer = none ∧
    (get_status (load_model loader st request).1).model_loaded = false ∧
    (load_model loader st request).2 =
      .error ⟨500, "Failed to load model: ".data ++ e⟩ := by
  rw [load_model_err h]
  by_cases hm : st.model.isSome
  · rw [if_pos hm]
    exact ⟨rfl, rfl, rfl, rfl⟩
  · rw [if_neg hm]
    have h1 : st.model = none := by
      cases hmm : st.model with
      | none => rfl
      | some m => rw [hmm] at hm; simp at hm
    have h2 : st.tokenizer = none := by
      rw [h1] at hcons
      cases hmm : st.tokenizer with
      | none => rfl
      | some t => rw [hmm] at hcons; simp at hcons
    refine ⟨h1, h2, ?_, rfl⟩
    simp [get_status, h1]

theorem C9_witness :
    (load_model (fun _ => .error "boom".data) (initState Nat Nat) ⟨"XYZ".data⟩).1.model =
      none ∧
    (load_model (fun _ => .error "boom".data) (initState Nat Nat)
      ⟨"XYZ".data⟩).1.tokenizer = none ∧
    (get_status (load_model (fun _ => .error "boom".data) (initState Nat Nat)
      ⟨"XYZ".data⟩).1).model_loaded = false ∧
    (load_model (fun _ => .error "boom".data) (initState Nat Nat) ⟨"XYZ".data⟩).2 =
      .error ⟨500, "Failed to load model: ".data ++ "boom".data⟩ :=
  C9_amended_failed_load_leaves_slot_empty (initState Nat Nat)
    (fun _ => .error "boom".data) ⟨"XYZ".data⟩ "boom".data rfl rfl

/-- C10: if a model is loaded and a subsequent load fails, the handle and
tokenizer are cleared but the recorded model path is not: a later status
query reports `model_loaded = false` together with the previous model's
non-null path. -/
theorem C10_failed_reload_keeps_stale_path {M T : Type} (st : ServerState M T)
    (loader : Str → Except Str (M × T)) (request : LoadRequest)
    (m : M) (p : Str) (e : Str)
    (hm : st.model = some m) (hp : st.current_model_path = some p)
    (h : loader request.model_path = .error e) :
    (load_model loader st request).1.model = none ∧
    (load_model loader st request).1.tokenizer = none ∧
    (load_model loader st request).1.current_model_path = some p ∧
    get_status (load_model loader st request).1 =
      ⟨"running".data, false, some p⟩ := by
  rw [load_model_err h, if_pos (by rw [hm]; rfl)]
  refine ⟨rfl, rfl, hp, ?_⟩
  simp [get_status, hp]

theorem C10_witness :
    (load_model (fun _ => .error "boom".data)
      (⟨some 1, some 2, some "prev".data⟩ : ServerState Nat Nat) ⟨"new".data⟩).1.model =
      none ∧
    (load_model (fun _ => .error "boom".data)
      (⟨some 1, some 2, some "prev".data⟩ : ServerState Nat Nat)
      ⟨"new".data⟩).1.tokenizer = none ∧
    (load_model (fun _ => .error "boom".data)
      (⟨some 1, some 2, some "prev".data⟩ : ServerState Nat Nat)
      ⟨"new".data⟩).1.current_model_path = some "prev".data ∧
    get_status (load_model (fun _ => .error "boom".data)
      (⟨some 1, some 2, some "prev".data⟩ : ServerState Nat Nat) ⟨"new".data⟩).1 =
      ⟨"running".data, false, some "prev".data⟩ :=
  C10_failed_reload_keeps_stale_path
    (⟨some 1, some 2, some "prev".data⟩ : ServerState Nat Nat)
    (fun _ => .error "boom".data) ⟨"new".data⟩ 1 "prev".data "boom".data rfl rfl rfl

end Codictate
